import Mathlib

/-!
# falco-validator: input resolution and validation orchestration

A shallow embedding of `main.go`.  Go strings are Lean strings, byte slices are
lists of naturals, an `error` is its message.  The operating system is an
in-memory file system `FS` (regular files, directory listings, free space and
write permissions); what the process prints and which programs it starts is
recorded in `World`.  The two external programs and the YAML library are
parameters, collected in `Env`.
-/

namespace Validator

/-! ## Data model -/

/-- Go `[]byte`. -/
abbrev Bytes := List Nat

/-- The `PluginDependency` struct. -/
structure PluginDependency where
  Name : String
  Version : String
  deriving DecidableEq, Repr

/-- The `RulesFile` struct: one record of a rules document. -/
structure RulesFile where
  RequiredPluginVersions : List PluginDependency
  deriving DecidableEq, Repr

/-- The `FalcoValidator` struct. -/
structure FalcoValidator where
  useStableRules : Bool
  deriving DecidableEq, Repr

/-- The local type `FalcoConfigPlugin` of `WriteConfig`. -/
structure FalcoConfigPlugin where
  Name : String
  LibraryPath : String
  deriving DecidableEq, Repr

/-- The anonymous config struct of `WriteConfig`. -/
structure FalcoConfig where
  Plugins : List FalcoConfigPlugin
  deriving DecidableEq, Repr

def rulesDir : String := "/etc/falco/rules.d"

def stableRules : String := "/etc/falco/falco_rules.yaml"

def NewFalcoValidator (useStableRules : Bool) : FalcoValidator :=
  { useStableRules := useStableRules }

/-! ## Strings -/

/-- Go `strings.Contains(s, "/")`. -/
def containsSlash (s : String) : Bool :=
  s.data.contains '/'

/-- Go `strings.HasSuffix`. -/
def HasSuffix (s suffix : String) : Bool :=
  suffix.data.isSuffixOf s.data

/-- Lexicographic `a <= b` on character codes.  Go compares strings byte by
byte; on UTF-8 text that is the order of the code points. -/
def leChars : List Char → List Char → Bool
  | [], _ => true
  | _ :: _, [] => false
  | a :: as, b :: bs =>
    if a.toNat < b.toNat then true
    else if b.toNat < a.toNat then false
    else leChars as bs

/-- Go `a <= b` on strings. -/
def strLE (a b : String) : Prop :=
  leChars a.data b.data = true

instance : DecidableRel strLE :=
  fun a b => inferInstanceAs (Decidable (leChars a.data b.data = true))

/-- Go `slices.Sort` on a `[]string`.  Strings that compare equal are equal, so
every sorting algorithm returns this list (`slicesSort_unique`). -/
def slicesSort (xs : List String) : List String :=
  List.insertionSort strLE xs

/-- Go `filepath.Join(dir, name)` for a clean `dir` and an entry name as
`os.ReadDir` returns it (no separator, not `.` or `..`): nothing to clean. -/
def filepathJoin (dir name : String) : String :=
  dir ++ "/" ++ name

/-! ## The operating system -/

/-- An in-memory file system. -/
structure FS where
  /-- Regular files and their content. -/
  files : String → Option Bytes
  /-- Directories and the names of their entries, as `os.ReadDir` lists them. -/
  dirs : String → Option (List String)
  /-- Bytes that can still be written before the device is full. -/
  free : Nat
  /-- Paths that cannot be opened for writing. -/
  denied : String → Bool

/-- The process's view of the world: the file system, what it has written to
standard output, and the command lines it has run. -/
structure World where
  fs : FS
  stdout : List String
  execs : List (List String)

/-- The external collaborators. -/
structure Env where
  /-- `exec.Command("falcoctl", args...).Run()`: the error if any, and the file
  system the program leaves. -/
  falcoctl : List String → FS → Option String × FS
  /-- `exec.Command("falco", args...).CombinedOutput()`. -/
  falco : List String → FS → (String × Option String) × FS
  /-- `yaml.Unmarshal` into a `[]RulesFile`. -/
  yamlUnmarshal : Bytes → Except String (List RulesFile)
  /-- `yaml.Marshal` of the config struct. -/
  yamlMarshal : FalcoConfig → Except String Bytes

def FS.size (fs : FS) (path : String) : Nat :=
  match fs.files path with
  | some b => b.length
  | none => 0

def FS.setFile (fs : FS) (path : String) (content : Option Bytes) : FS :=
  { fs with files := fun p => if p = path then content else fs.files p }

/-- Go `os.ReadFile`. -/
def osReadFile (fs : FS) (path : String) : Except String Bytes :=
  match fs.files path with
  | some b => .ok b
  | none => .error ("open " ++ path ++ ": no such file or directory")

/-- Go `os.Create`: create or truncate. -/
def osCreate (fs : FS) (path : String) : Except String FS :=
  if fs.denied path then .error ("open " ++ path ++ ": permission denied")
  else .ok { fs.setFile path (some []) with free := fs.free + fs.size path }

/-- Write `data` at the end of the open file `path`: what fits is written. -/
def fileWrite (fs : FS) (path : String) (data : Bytes) : Option String × FS :=
  let old := (fs.files path).getD []
  let fs1 : FS :=
    { fs.setFile path (some (old ++ data.take fs.free)) with free := fs.free - data.length }
  if data.length ≤ fs.free then (none, fs1)
  else (some ("write " ++ path ++ ": no space left on device"), fs1)

/-- Go `os.WriteFile`. -/
def osWriteFile (fs : FS) (path : String) (data : Bytes) : Option String × FS :=
  match osCreate fs path with
  | .error e => (some e, fs)
  | .ok fs1 => fileWrite fs1 path data

/-- Go `io.Copy(outFile, inFile)` for the open output file `outFile` and a file
just opened at `inputPath`: the input is read from its start to its end and
written at the end of the output.  When the two are one file that is not
empty, the reader never reaches the end, and the file grows by repeating itself
until the device is full. -/
def ioCopy (fs : FS) (outFile inputPath : String) : Option String × FS :=
  let data := (fs.files inputPath).getD []
  if inputPath = outFile ∧ data ≠ [] then
    (some ("write " ++ outFile ++ ": no space left on device"),
      { fs.setFile outFile
          (some (data ++ (List.range fs.free).map (fun i => data.getD (i % data.length) 0)))
        with free := 0 })
  else fileWrite fs outFile data

/-- Go `os.Remove`; its error is ignored by the program. -/
def osRemove (fs : FS) (path : String) : FS :=
  { fs.setFile path none with free := fs.free + fs.size path }

/-- Go `os.ReadDir`: the entry names. -/
def osReadDir (fs : FS) (path : String) : Except String (List String) :=
  match fs.dirs path with
  | some names => .ok names
  | none => .error ("open " ++ path ++ ": no such file or directory")

/-- Go `fmt.Print` of an already formatted string. -/
def World.print (w : World) (s : String) : World :=
  { w with stdout := w.stdout ++ [s] }

/-! ## The program -/

/-- `ParseRulesFile`. -/
def FalcoValidator.ParseRulesFile (_f : FalcoValidator) (env : Env) (fs : FS) (path : String) :
    Except String (List PluginDependency) :=
  match osReadFile fs path with
  | .error err => .error ("failed to read file " ++ path ++ ": " ++ err)
  | .ok data =>
    match env.yamlUnmarshal data with
    | .error err => .error ("failed to unmarshal YAML: " ++ err)
    | .ok rulesFile =>
      .ok (rulesFile.foldl (fun deps rf => deps ++ rf.RequiredPluginVersions) [])

/-- One iteration of the loop of `DeduplicatePlugins`; the state is the key set
of the map `seen` and `result`. -/
def DeduplicatePlugins.step (st : List String × List PluginDependency) (dep : PluginDependency) :
    List String × List PluginDependency :=
  if !st.1.contains dep.Name then (dep.Name :: st.1, st.2 ++ [dep]) else st

/-- `DeduplicatePlugins`. -/
def FalcoValidator.DeduplicatePlugins (_f : FalcoValidator) (deps : List PluginDependency) :
    List PluginDependency :=
  (deps.foldl DeduplicatePlugins.step ([], [])).2

/-- The loop of `ExtractPluginDependencies`, from the paths still to read and
`allDeps`. -/
def ExtractPluginDependencies.loop (f : FalcoValidator) (env : Env) (fs : FS) :
    List String → List PluginDependency → Except String (List PluginDependency)
  | [], allDeps => .ok allDeps
  | path :: rest, allDeps =>
    match f.ParseRulesFile env fs path with
    | .error err => .error ("error parsing " ++ path ++ ": " ++ err)
    | .ok deps => ExtractPluginDependencies.loop f env fs rest (allDeps ++ deps)

/-- `ExtractPluginDependencies`. -/
def FalcoValidator.ExtractPluginDependencies (f : FalcoValidator) (env : Env) (fs : FS)
    (paths : List String) : Except String (List PluginDependency) :=
  match ExtractPluginDependencies.loop f env fs paths [] with
  | .error err => .error err
  | .ok allDeps => .ok (f.DeduplicatePlugins allDeps)

/-- `InstallArtifact`: runs `falcoctl artifact install ref --rulesfiles-dir=...`. -/
def FalcoValidator.InstallArtifact (_f : FalcoValidator) (env : Env) (ref : String) (w : World) :
    Option String × World :=
  let args := ["artifact", "install", ref, "--rulesfiles-dir=" ++ rulesDir]
  let r := env.falcoctl args w.fs
  let w1 : World := { w with fs := r.2, execs := w.execs ++ ["falcoctl" :: args] }
  match r.1 with
  | some err => (some ("failed to install artifact " ++ ref ++ ": " ++ err), w1)
  | none => (none, w1)

/-- The test of `ProcessInput` that makes an input a path. -/
def looksLikePath (input : String) : Bool :=
  containsSlash input || HasSuffix input ".yaml" || HasSuffix input ".yml"

/-- The loop of `ProcessInput` over the inputs, from the inputs still to
process and `rulePaths`. -/
def ProcessInput.loop (f : FalcoValidator) (env : Env) :
    List String → List String → World → Except String (List String) × World
  | [], rulePaths, w => (.ok rulePaths, w)
  | input :: rest, rulePaths, w =>
    if looksLikePath input then
      ProcessInput.loop f env rest (rulePaths ++ [input]) w
    else
      match f.InstallArtifact env input w with
      | (some err, w1) => (.error ("failed to install artifact " ++ input ++ ": " ++ err), w1)
      | (none, w1) => ProcessInput.loop f env rest rulePaths w1

/-- The loop of `ProcessInput` over the entries of the rules directory. -/
def ProcessInput.scan (rulePaths : List String) (dir : List String) : List String :=
  dir.foldl
    (fun rulePaths name =>
      if HasSuffix name ".yaml" then rulePaths ++ [filepathJoin rulesDir name] else rulePaths)
    rulePaths

/-- `ProcessInput`. -/
def FalcoValidator.ProcessInput (f : FalcoValidator) (env : Env) (inputs : List String)
    (w : World) : Except String (List String) × World :=
  let rulePaths : List String := if f.useStableRules then [stableRules] else []
  match ProcessInput.loop f env inputs rulePaths w with
  | (.error err, w1) => (.error err, w1)
  | (.ok rulePaths, w1) =>
    match osReadDir w1.fs rulesDir with
    | .error err => (.error ("failed to read dir " ++ rulesDir ++ ": " ++ err), w1)
    | .ok dir => (.ok (slicesSort (ProcessInput.scan rulePaths dir)), w1)

/-- `appendFile`: `os.Open` the input, `io.Copy` it to the open output file. -/
def FalcoValidator.appendFile (_f : FalcoValidator) (outFile : String) (inputPath : String)
    (fs : FS) : Option String × FS :=
  match fs.files inputPath with
  | none => (some ("open " ++ inputPath ++ ": no such file or directory"), fs)
  | some _ => ioCopy fs outFile inputPath

/-- The loop of `CombineRulesFiles`. -/
def CombineRulesFiles.loop (f : FalcoValidator) (outFile : String) :
    List String → World → Option String × World
  | [], w => (none, w)
  | inputPath :: rest, w =>
    let w1 := w.print ("appending " ++ inputPath ++ "\n")
    match f.appendFile outFile inputPath w1.fs with
    | (some err, fs2) =>
      (some ("failed to append file " ++ inputPath ++ ": " ++ err), { w1 with fs := fs2 })
    | (none, fs2) => CombineRulesFiles.loop f outFile rest { w1 with fs := fs2 }

/-- `CombineRulesFiles`. -/
def FalcoValidator.CombineRulesFiles (f : FalcoValidator) (inputPaths : List String)
    (outputPath : String) (w : World) : Option String × World :=
  match osCreate w.fs outputPath with
  | .error err => (some ("failed to create output file " ++ outputPath ++ ": " ++ err), w)
  | .ok fs1 => CombineRulesFiles.loop f outputPath inputPaths { w with fs := fs1 }

/-- The config struct `WriteConfig` builds before it marshals it. -/
def WriteConfig.config (plugins : List PluginDependency) : FalcoConfig :=
  plugins.foldl
    (fun config p =>
      { Plugins := config.Plugins ++
          [{ Name := p.Name, LibraryPath := "lib" ++ p.Name ++ ".so" }] })
    { Plugins := [] }

/-- `WriteConfig`. -/
def FalcoValidator.WriteConfig (_f : FalcoValidator) (env : Env) (path : String)
    (plugins : List PluginDependency) (fs : FS) : Option String × FS :=
  match env.yamlMarshal (WriteConfig.config plugins) with
  | .error err => (some err, fs)
  | .ok configYAML =>
    match osWriteFile fs path configYAML with
    | (some err, fs1) => (some ("failed to write config to " ++ path ++ ": " ++ err), fs1)
    | (none, fs1) => (none, fs1)

/-- `ValidateWithOutput`: runs `falco -c configPath -V rulesPath`. -/
def FalcoValidator.ValidateWithOutput (_f : FalcoValidator) (env : Env)
    (configPath rulesPath : String) (w : World) : (String × Option String) × World :=
  let args := ["-c", configPath, "-V", rulesPath]
  let r := env.falco args w.fs
  let w1 : World := { w with fs := r.2, execs := w.execs ++ ["falco" :: args] }
  match r.1.2 with
  | some err => ((r.1.1, some ("validation failed: " ++ err)), w1)
  | none => ((r.1.1, none), w1)

def configPath : String := "/tmp/falco-validator-config.yaml"

def rulesPath : String := "/tmp/falco-validator-rules.yaml"

/-- `Run`.  A deferred `os.Remove` runs on every return after the `defer`
statement that registers it, the last registered first. -/
def FalcoValidator.Run (f : FalcoValidator) (env : Env) (args : List String) (w : World) :
    Option String × World :=
  let w := w.print "Processing inputs...\n"
  match f.ProcessInput env args w with
  | (.error err, w) => (some err, w)
  | (.ok rulePaths, w) =>
    let w := w.print ("Found " ++ toString rulePaths.length ++ " rules files\n")
    let w := w.print "Extracting plugin dependencies...\n"
    match f.ExtractPluginDependencies env w.fs rulePaths with
    | .error err => (some ("failed to extract plugin dependencies: " ++ err), w)
    | .ok plugins =>
      let w := w.print ("Found " ++ toString plugins.length ++ " required plugins\n")
      let w := plugins.foldl
        (fun w p => w.print ("  - " ++ p.Name ++ "@" ++ p.Version ++ "\n")) w
      let w := w.print ("Generating falco config at " ++ configPath ++ "\n")
      match f.WriteConfig env configPath plugins w.fs with
      | (some err, fs1) => (some ("failed to generate config: " ++ err), { w with fs := fs1 })
      | (none, fs1) =>
        let w : World := { w with fs := fs1 }
        let w := w.print ("Combining rules files into " ++ rulesPath ++ "\n")
        match f.CombineRulesFiles rulePaths rulesPath w with
        | (some err, w) =>
          (some ("failed to combine rules files: " ++ err),
            { w with fs := osRemove w.fs configPath })
        | (none, w) =>
          let w := w.print "Running falco validation...\n"
          match f.ValidateWithOutput env configPath rulesPath w with
          | ((output, err), w) =>
            let w := if output ≠ "" then w.print (output ++ "\n") else w
            (err, { w with fs := osRemove (osRemove w.fs rulesPath) configPath })

/-! ## Invariants and examples -/

/-- What the loop of `DeduplicatePlugins` has established once it has gone
through `deps`: `seen` holds the names met, `result` holds for every name the
first entry that carries it, and `result` is ordered by first occurrence. -/
def DedupInv (deps : List PluginDependency) (st : List String × List PluginDependency) : Prop :=
  (∀ n, n ∈ st.1 ↔ n ∈ deps.map (·.Name)) ∧
  (∀ n, st.2.filter (fun d => d.Name == n) = (deps.find? (fun d => d.Name == n)).toList) ∧
  st.2.Pairwise (fun a b =>
    (deps.map (·.Name)).indexOf a.Name < (deps.map (·.Name)).indexOf b.Name)

/-- A stand-in for the YAML decoder on three documents: the empty document, one
that declares plugin `a` at version `1`, and one that declares `a` at version
`2` and `b` at version `1`. -/
def exampleUnmarshal : Bytes → Except String (List RulesFile)
  | [] => .ok []
  | [1] => .ok [⟨[⟨"a", "1"⟩]⟩]
  | [2] => .ok [⟨[⟨"a", "2"⟩, ⟨"b", "1"⟩]⟩]
  | _ => .error "yaml: unmarshal errors"

/-- A stand-in for the YAML encoder: one byte per plugin. -/
def exampleMarshal (config : FalcoConfig) : Except String Bytes :=
  .ok (config.Plugins.map (fun p => p.Name.length))

/-- An installer that knows no artifact, and a validator that rejects. -/
def exampleEnv : Env where
  falcoctl := fun _ fs => (some "exit status 1", fs)
  falco := fun _ fs => (("LOAD_ERR_VALIDATE", some "exit status 1"), fs)
  yamlUnmarshal := exampleUnmarshal
  yamlMarshal := exampleMarshal

/-- A file system with two rules files given by the caller, one installed
rules file and one `.yml` file in the rules directory. -/
def exampleFS : FS where
  files := fun p =>
    if p = "one.yaml" then some [1]
    else if p = "two.yaml" then some [2]
    else if p = "/etc/falco/rules.d/x.yaml" then some [1]
    else if p = "/etc/falco/rules.d/extra.yml" then some [2]
    else none
  dirs := fun p => if p = "/etc/falco/rules.d" then some ["extra.yml", "x.yaml"] else none
  free := 100
  denied := fun _ => false

def exampleWorld : World where
  fs := exampleFS
  stdout := []
  execs := []

/-- The command line of one installer invocation: the identifier as the
artifact reference, the rules directory as the target. -/
def installCmd (ref : String) : List String :=
  ["falcoctl", "artifact", "install", ref, "--rulesfiles-dir=" ++ rulesDir]

/-- The inputs `ProcessInput` hands to the installer: those that do not look
like a path. -/
def identifiers (inputs : List String) : List String :=
  inputs.filter (fun input => !looksLikePath input)

/-- The paths `ProcessInput` takes from the entries of the rules directory. -/
def discovered (dir : List String) : List String :=
  (dir.filter (fun name => HasSuffix name ".yaml")).map (filepathJoin rulesDir)

/-- The example world with room for two more bytes on the device. -/
def almostFullWorld : World where
  fs := { exampleFS with free := 2 }
  stdout := []
  execs := []

/-- The example world with a full device. -/
def fullWorld : World where
  fs := { exampleFS with free := 0 }
  stdout := []
  execs := []

/-- An installer that knows the artifact `falco-rules` and installs it as
`falco_rules.yaml` in the rules directory. -/
def installingEnv : Env where
  falcoctl := fun args fs =>
    match args with
    | ["artifact", "install", "falco-rules", _] =>
      (none,
        { fs with
          files := fun p =>
            if p = "/etc/falco/rules.d/falco_rules.yaml" then some [2] else fs.files p
          dirs := fun p =>
            if p = "/etc/falco/rules.d" then
              (fs.dirs p).map (fun names => names ++ ["falco_rules.yaml"])
            else fs.dirs p })
    | _ => (some "exit status 1", fs)
  falco := fun _ fs => (("", none), fs)
  yamlUnmarshal := exampleUnmarshal
  yamlMarshal := exampleMarshal

/-- The first installation that fails when the installer is run on the
identifiers one after the other, each on the file system the one before has
left: its position in the list and the installer's error; `none` when every
installation succeeds.  It is the specification the installer invocations of
`ProcessInput` are compared with; the program does not use it. -/
def firstFailedInstall (env : Env) : List String → FS → Option (Nat × String)
  | [], _ => none
  | ref :: rest, fs =>
    match (env.falcoctl ["artifact", "install", ref, "--rulesfiles-dir=" ++ rulesDir] fs).1 with
    | some err => some (0, err)
    | none =>
      (firstFailedInstall env rest
        (env.falcoctl ["artifact", "install", ref, "--rulesfiles-dir=" ++ rulesDir] fs).2).map
        (fun found => (found.1 + 1, found.2))

/-! ## Deduplication -/

theorem find_none_of_not_mem (deps : List PluginDependency) (n : String)
    (h : n ∉ deps.map (·.Name)) : deps.find? (fun d => d.Name == n) = none := by
  rw [List.find?_eq_none]
  intro x hx hn
  exact h (List.mem_map.mpr ⟨x, hx, by simpa using hn⟩)

theorem find_isSome_of_mem (deps : List PluginDependency) (n : String)
    (h : n ∈ deps.map (·.Name)) : (deps.find? (fun d => d.Name == n)).isSome = true := by
  rw [List.find?_isSome]
  obtain ⟨x, hx, hn⟩ := List.mem_map.mp h
  exact ⟨x, hx, by simpa using hn⟩

theorem name_mem_of_mem_result {deps : List PluginDependency}
    {st : List String × List PluginDependency} (h : DedupInv deps st)
    {a : PluginDependency} (ha : a ∈ st.2) : a.Name ∈ deps.map (·.Name) := by
  by_contra hn
  have h1 := h.2.1 a.Name
  rw [find_none_of_not_mem deps a.Name hn] at h1
  have h2 : a ∈ st.2.filter (fun d => d.Name == a.Name) := by
    simp [List.mem_filter, ha]
  rw [h1] at h2
  simp at h2

theorem dedupInv_step (deps : List PluginDependency) (st : List String × List PluginDependency)
    (d : PluginDependency) (h : DedupInv deps st) :
    DedupInv (deps ++ [d]) (DeduplicatePlugins.step st d) := by
  obtain ⟨hs, hf, hp⟩ := h
  unfold DeduplicatePlugins.step
  by_cases hd : d.Name ∈ st.1
  · have hdn : d.Name ∈ deps.map (·.Name) := (hs _).mp hd
    have hc : st.1.contains d.Name = true := by simp [hd]
    simp only [hc, Bool.not_true, Bool.false_eq_true, if_false]
    refine ⟨?_, ?_, ?_⟩
    · intro n
      rw [hs n]
      simp only [List.map_append, List.map_cons, List.map_nil, List.mem_append,
        List.mem_singleton]
      constructor
      · exact Or.inl
      · rintro (h1 | h1)
        · exact h1
        · exact h1 ▸ hdn
    · intro n
      rw [hf n, List.find?_append]
      by_cases hn : d.Name = n
      · subst hn
        have := find_isSome_of_mem deps d.Name hdn
        cases hfd : deps.find? (fun e => e.Name == d.Name) with
        | none => simp [hfd] at this
        | some x => simp
      · simp [List.find?_cons, hn]
    · refine hp.imp_of_mem ?_
      intro a b ha hb hab
      have ha1 := name_mem_of_mem_result ⟨hs, hf, hp⟩ ha
      have hb1 := name_mem_of_mem_result ⟨hs, hf, hp⟩ hb
      rw [List.map_append, List.indexOf_append_of_mem ha1, List.indexOf_append_of_mem hb1]
      exact hab
  · have hdn : d.Name ∉ deps.map (·.Name) := fun h1 => hd ((hs _).mpr h1)
    have hc : st.1.contains d.Name = false := by simp [hd]
    simp only [hc, Bool.not_false, if_true]
    refine ⟨?_, ?_, ?_⟩
    · intro n
      simp only [List.mem_cons, hs n, List.map_append, List.map_cons, List.map_nil,
        List.mem_append, List.not_mem_nil, or_false]
      exact or_comm
    · intro n
      rw [List.filter_append, hf n, List.find?_append]
      by_cases hn : d.Name = n
      · subst hn
        rw [find_none_of_not_mem deps d.Name hdn]
        simp
      · cases hfd : deps.find? (fun e => e.Name == n) <;> simp [List.find?_cons, hn]
    · rw [List.pairwise_append]
      refine ⟨?_, List.pairwise_singleton _ _, ?_⟩
      · refine hp.imp_of_mem ?_
        intro a b ha hb hab
        have ha1 := name_mem_of_mem_result ⟨hs, hf, hp⟩ ha
        have hb1 := name_mem_of_mem_result ⟨hs, hf, hp⟩ hb
        rw [List.map_append, List.indexOf_append_of_mem ha1, List.indexOf_append_of_mem hb1]
        exact hab
      · intro a ha b hb
        have ha1 := name_mem_of_mem_result ⟨hs, hf, hp⟩ ha
        rw [List.mem_singleton] at hb
        subst hb
        rw [List.map_append, List.indexOf_append_of_mem ha1,
          List.indexOf_append_of_not_mem hdn]
        have := List.indexOf_lt_length.mpr ha1
        omega

theorem dedupInv_foldl (deps : List PluginDependency) :
    DedupInv deps (deps.foldl DeduplicatePlugins.step ([], [])) := by
  induction deps using List.reverseRecOn with
  | nil => exact ⟨by simp, by simp, List.Pairwise.nil⟩
  | append_singleton l a ih =>
    rw [List.foldl_append]
    exact dedupInv_step l _ a ih

theorem count_name_eq_length_filter (out : List PluginDependency) (n : String) :
    (out.map (·.Name)).count n = (out.filter (fun d => d.Name == n)).length := by
  rw [List.count, List.countP_map, List.countP_eq_length_filter]
  rfl

theorem dedup_step_names (d d' : PluginDependency) (hd : d.Name = d'.Name)
    (st st' : List String × List PluginDependency) (h1 : st.1 = st'.1)
    (h2 : st.2.map (·.Name) = st'.2.map (·.Name)) :
    (DeduplicatePlugins.step st d).1 = (DeduplicatePlugins.step st' d').1 ∧
    (DeduplicatePlugins.step st d).2.map (·.Name) =
      (DeduplicatePlugins.step st' d').2.map (·.Name) := by
  unfold DeduplicatePlugins.step
  rw [← h1, ← hd]
  by_cases hc : st.1.contains d.Name = true
  · simp only [hc, Bool.not_true, Bool.false_eq_true, if_false]
    exact ⟨h1, h2⟩
  · simp only [hc, Bool.not_false, if_true, List.map_append, List.map_cons, List.map_nil]
    exact ⟨trivial, by rw [h2, hd]⟩

theorem dedup_foldl_names (deps : List PluginDependency) :
    ∀ (deps' : List PluginDependency) (st st' : List String × List PluginDependency),
      deps.map (·.Name) = deps'.map (·.Name) → st.1 = st'.1 →
      st.2.map (·.Name) = st'.2.map (·.Name) →
      (deps.foldl DeduplicatePlugins.step st).2.map (·.Name) =
        (deps'.foldl DeduplicatePlugins.step st').2.map (·.Name) := by
  induction deps with
  | nil =>
    intro deps' st st' hn _ h2
    cases deps' with
    | nil => simpa using h2
    | cons a l => simp at hn
  | cons d ds ih =>
    intro deps' st st' hn h1 h2
    cases deps' with
    | nil => simp at hn
    | cons d' ds' =>
      simp only [List.map_cons, List.cons.injEq] at hn
      have hs := dedup_step_names d d' hn.1 st st' h1 h2
      simp only [List.foldl_cons]
      exact ih ds' _ _ hn.2 hs.1 hs.2

/-- C1. `DeduplicatePlugins` returns a list in which every name of the input
occurs exactly once and no other name occurs, with the names in the order of
their first occurrence in the input; only the names decide the names of the
result (two inputs with the same names and any versions give the same names),
and names that differ in case are different names. -/
theorem DeduplicatePlugins_each_name_once_in_first_seen_order (f : FalcoValidator)
    (deps : List PluginDependency) :
    (∀ n, n ∈ deps.map (·.Name) → ((f.DeduplicatePlugins deps).map (·.Name)).count n = 1) ∧
    (∀ n, n ∉ deps.map (·.Name) → ((f.DeduplicatePlugins deps).map (·.Name)).count n = 0) ∧
    ((f.DeduplicatePlugins deps).map (·.Name)).Pairwise
      (fun a b => (deps.map (·.Name)).indexOf a < (deps.map (·.Name)).indexOf b) ∧
    (∀ deps' : List PluginDependency, deps'.map (·.Name) = deps.map (·.Name) →
      (f.DeduplicatePlugins deps').map (·.Name) = (f.DeduplicatePlugins deps).map (·.Name)) ∧
    f.DeduplicatePlugins [⟨"json", "0.1.0"⟩, ⟨"JSON", "0.2.0"⟩, ⟨"json", "0.3.0"⟩] =
      [⟨"json", "0.1.0"⟩, ⟨"JSON", "0.2.0"⟩] := by
  have h := dedupInv_foldl deps
  refine ⟨?_, ?_, ?_, ?_, ?_⟩
  · intro n hn
    rw [count_name_eq_length_filter]
    unfold FalcoValidator.DeduplicatePlugins
    rw [h.2.1 n]
    have := find_isSome_of_mem deps n hn
    cases hfd : deps.find? (fun e => e.Name == n) with
    | none => simp [hfd] at this
    | some x => simp
  · intro n hn
    rw [count_name_eq_length_filter]
    unfold FalcoValidator.DeduplicatePlugins
    rw [h.2.1 n, find_none_of_not_mem deps n hn]
    simp
  · unfold FalcoValidator.DeduplicatePlugins
    rw [List.pairwise_map]
    exact h.2.2
  · intro deps' hn
    unfold FalcoValidator.DeduplicatePlugins
    exact dedup_foldl_names deps' deps _ _ hn rfl rfl
  · show (List.foldl DeduplicatePlugins.step ([], []) _).2 = _
    decide

/-! ## Dependency extraction -/

/-- The dependencies a document declares, in document order. -/
theorem foldl_required_eq_flatten (doc : List RulesFile) (acc : List PluginDependency) :
    doc.foldl (fun deps rf => deps ++ rf.RequiredPluginVersions) acc =
      acc ++ (doc.map (·.RequiredPluginVersions)).flatten := by
  induction doc generalizing acc with
  | nil => simp
  | cons rf rest ih => simp [ih, List.append_assoc]

theorem ParseRulesFile_ok (f : FalcoValidator) (env : Env) (fs : FS) (path : String)
    (data : Bytes) (doc : List RulesFile) (h1 : fs.files path = some data)
    (h2 : env.yamlUnmarshal data = .ok doc) :
    f.ParseRulesFile env fs path = .ok (doc.map (·.RequiredPluginVersions)).flatten := by
  simp [FalcoValidator.ParseRulesFile, osReadFile, h1, h2, foldl_required_eq_flatten]

theorem extract_loop_ok (f : FalcoValidator) (env : Env) (fs : FS) (paths : List String)
    (docs : List (List RulesFile))
    (h : List.Forall₂
      (fun path doc => ∃ data, fs.files path = some data ∧ env.yamlUnmarshal data = .ok doc)
      paths docs) (acc : List PluginDependency) :
    ExtractPluginDependencies.loop f env fs paths acc =
      .ok (acc ++ (docs.map (fun doc => (doc.map (·.RequiredPluginVersions)).flatten)).flatten) := by
  induction h generalizing acc with
  | nil => simp [ExtractPluginDependencies.loop]
  | cons hd _ ih =>
    obtain ⟨data, h1, h2⟩ := hd
    simp [ExtractPluginDependencies.loop, ParseRulesFile_ok f env fs _ data _ h1 h2, ih,
      List.append_assoc]

/-- C2. When every listed file reads and decodes (to the documents `docs`, in
path order), `ExtractPluginDependencies` succeeds, and of the concatenation of
the declared dependency lists (path order, then document order) it returns,
for every name, exactly the first entry carrying that name, with that entry's
version, and no later entry of that name; the entries come in the order of
their names' first occurrence. -/
theorem ExtractPluginDependencies_first_entry_wins (f : FalcoValidator) (env : Env) (fs : FS)
    (paths : List String) (docs : List (List RulesFile))
    (h : List.Forall₂
      (fun path doc => ∃ data, fs.files path = some data ∧ env.yamlUnmarshal data = .ok doc)
      paths docs) :
    ∃ out, f.ExtractPluginDependencies env fs paths = .ok out ∧
      (∀ n, out.filter (fun d => d.Name == n) =
        (((docs.map (fun doc => (doc.map (·.RequiredPluginVersions)).flatten)).flatten).find?
          (fun d => d.Name == n)).toList) ∧
      out.Pairwise (fun a b =>
        (((docs.map (fun doc => (doc.map (·.RequiredPluginVersions)).flatten)).flatten).map
            (·.Name)).indexOf a.Name <
          (((docs.map (fun doc => (doc.map (·.RequiredPluginVersions)).flatten)).flatten).map
            (·.Name)).indexOf b.Name) := by
  have hl := extract_loop_ok f env fs paths docs h []
  have hi := dedupInv_foldl
    ((docs.map (fun doc => (doc.map (·.RequiredPluginVersions)).flatten)).flatten)
  refine ⟨_, ?_, hi.2.1, hi.2.2⟩
  unfold FalcoValidator.ExtractPluginDependencies
  rw [hl]
  rfl

/-- C2, the two files of the example: the first declares `a` at version `1`,
the second `a` at version `2` and `b` at version `1`; the result is `a` at
version `1`, then `b` at version `1`. -/
theorem ExtractPluginDependencies_first_entry_wins_witness :
    (⟨false⟩ : FalcoValidator).ExtractPluginDependencies exampleEnv exampleFS
        ["one.yaml", "two.yaml"] = .ok [⟨"a", "1"⟩, ⟨"b", "1"⟩] ∧
    ∃ out, (⟨false⟩ : FalcoValidator).ExtractPluginDependencies exampleEnv exampleFS
        ["one.yaml", "two.yaml"] = .ok out ∧
      (∀ n, out.filter (fun d => d.Name == n) =
        (([⟨"a", "1"⟩, ⟨"a", "2"⟩, ⟨"b", "1"⟩] : List PluginDependency).find?
          (fun d => d.Name == n)).toList) ∧
      out.Pairwise (fun a b =>
        (["a", "a", "b"] : List String).indexOf a.Name <
          (["a", "a", "b"] : List String).indexOf b.Name) :=
  ⟨by rfl,
    ExtractPluginDependencies_first_entry_wins ⟨false⟩ exampleEnv exampleFS
      ["one.yaml", "two.yaml"] [[⟨[⟨"a", "1"⟩]⟩], [⟨[⟨"a", "2"⟩, ⟨"b", "1"⟩]⟩]]
      (List.Forall₂.cons ⟨[1], by decide, rfl⟩
        (List.Forall₂.cons ⟨[2], by decide, rfl⟩ List.Forall₂.nil))⟩

/-! ## The order on paths and sorting -/

theorem leChars_total (a : List Char) : ∀ b : List Char, leChars a b = true ∨ leChars b a = true := by
  induction a with
  | nil => intro b; exact Or.inl (by simp [leChars])
  | cons x xs ih =>
    intro b
    cases b with
    | nil => exact Or.inr (by simp [leChars])
    | cons y ys =>
      simp only [leChars]
      by_cases h1 : x.toNat < y.toNat
      · simp [h1]
      · by_cases h2 : y.toNat < x.toNat
        · simp [h2]
        · simpa [h1, h2] using ih ys

theorem leChars_trans (a : List Char) :
    ∀ b c : List Char, leChars a b = true → leChars b c = true → leChars a c = true := by
  induction a with
  | nil => intro b c _ _; simp [leChars]
  | cons x xs ih =>
    intro b c hab hbc
    cases b with
    | nil => simp [leChars] at hab
    | cons y ys =>
      cases c with
      | nil => simp [leChars] at hbc
      | cons z zs =>
        simp only [leChars] at hab hbc ⊢
        by_cases h1 : x.toNat < y.toNat
        · by_cases h3 : y.toNat < z.toNat
          · have : x.toNat < z.toNat := by omega
            simp [this]
          · by_cases h4 : z.toNat < y.toNat
            · simp [h3, h4] at hbc
            · have : x.toNat < z.toNat := by omega
              simp [this]
        · by_cases h2 : y.toNat < x.toNat
          · simp [h1, h2] at hab
          · simp only [h1, h2, if_false] at hab
            by_cases h3 : y.toNat < z.toNat
            · have : x.toNat < z.toNat := by omega
              simp [this]
            · by_cases h4 : z.toNat < y.toNat
              · simp [h3, h4] at hbc
              · simp only [h3, h4, if_false] at hbc
                have h5 : ¬ x.toNat < z.toNat := by omega
                have h6 : ¬ z.toNat < x.toNat := by omega
                simp only [h5, h6, if_false]
                exact ih ys zs hab hbc

theorem leChars_antisymm (a : List Char) :
    ∀ b : List Char, leChars a b = true → leChars b a = true → a = b := by
  induction a with
  | nil =>
    intro b _ hba
    cases b with
    | nil => rfl
    | cons y ys => simp [leChars] at hba
  | cons x xs ih =>
    intro b hab hba
    cases b with
    | nil => simp [leChars] at hab
    | cons y ys =>
      simp only [leChars] at hab hba
      by_cases h1 : x.toNat < y.toNat
      · have h2 : ¬ y.toNat < x.toNat := by omega
        simp [h1, h2] at hba
      · by_cases h2 : y.toNat < x.toNat
        · simp [h1, h2] at hab
        · simp only [h1, h2, if_false] at hab hba
          have hxy : x = y := by
            apply Char.ext
            apply UInt32.ext
            show x.toNat = y.toNat
            omega
          rw [hxy, ih ys hab hba]

theorem strLE_isTotal : IsTotal String strLE :=
  ⟨fun a b => leChars_total a.data b.data⟩

theorem strLE_isTrans : IsTrans String strLE :=
  ⟨fun a b c => leChars_trans a.data b.data c.data⟩

theorem strLE_isAntisymm : IsAntisymm String strLE :=
  ⟨fun a b hab hba => String.ext (leChars_antisymm a.data b.data hab hba)⟩

theorem slicesSort_sorted (xs : List String) : List.Sorted strLE (slicesSort xs) :=
  haveI := strLE_isTotal
  haveI := strLE_isTrans
  List.sorted_insertionSort strLE xs

theorem slicesSort_perm (xs : List String) : List.Perm (slicesSort xs) xs :=
  List.perm_insertionSort strLE xs

/-- The sorted rearrangement of a list of strings is unique, so `slicesSort`
is the result of every algorithm that sorts. -/
theorem slicesSort_unique (xs ys : List String) (hp : List.Perm ys xs)
    (hs : List.Sorted strLE ys) : ys = slicesSort xs :=
  haveI := strLE_isAntisymm
  List.eq_of_perm_of_sorted (hp.trans (slicesSort_perm xs).symm) hs (slicesSort_sorted xs)

/-! ## Input resolution -/

theorem processInput_loop_paths (f : FalcoValidator) (env : Env) :
    ∀ (inputs rulePaths : List String) (w : World) (out : List String),
      (ProcessInput.loop f env inputs rulePaths w).1 = .ok out →
      out = rulePaths ++ inputs.filter looksLikePath := by
  intro inputs
  induction inputs with
  | nil =>
    intro rulePaths w out h
    simp [ProcessInput.loop] at h
    simp [h]
  | cons input rest ih =>
    intro rulePaths w out h
    unfold ProcessInput.loop at h
    by_cases hp : looksLikePath input = true
    · simp only [hp, if_true] at h
      rw [ih _ _ _ h]
      simp [List.filter_cons, hp]
    · simp only [hp, Bool.false_eq_true, if_false] at h
      rcases hi : f.InstallArtifact env input w with ⟨_ | err, w1⟩
      · rw [hi] at h
        simp only at h
        rw [ih _ _ _ h]
        simp [List.filter_cons, hp]
      · rw [hi] at h
        simp at h

theorem processInput_scan_eq (dir rulePaths : List String) :
    ProcessInput.scan rulePaths dir = rulePaths ++ discovered dir := by
  unfold ProcessInput.scan discovered
  induction dir generalizing rulePaths with
  | nil => simp
  | cons name rest ih =>
    by_cases hn : HasSuffix name ".yaml" = true
    · simp [List.foldl_cons, hn, ih, List.filter_cons]
    · simp [List.foldl_cons, hn, ih, List.filter_cons]

/-- What `ProcessInput` returns when it succeeds: the sorted list of the stable
ruleset (when asked for), the inputs that look like a path, and the paths found
in the rules directory as it is once the inputs have been processed. -/
theorem ProcessInput_ok (f : FalcoValidator) (env : Env) (inputs : List String) (w : World)
    (paths : List String) (h : (f.ProcessInput env inputs w).1 = .ok paths) :
    ∃ dir, (f.ProcessInput env inputs w).2.fs.dirs rulesDir = some dir ∧
      paths = slicesSort ((if f.useStableRules then [stableRules] else []) ++
        inputs.filter looksLikePath ++ discovered dir) := by
  rcases hl : ProcessInput.loop f env inputs (if f.useStableRules then [stableRules] else []) w
    with ⟨_ | rp, w1⟩
  · simp [FalcoValidator.ProcessInput, hl] at h
  · have hp := processInput_loop_paths f env inputs _ w rp (by rw [hl])
    simp only [FalcoValidator.ProcessInput, hl] at h ⊢
    unfold osReadDir at h ⊢
    cases hd : w1.fs.dirs rulesDir with
    | none => simp [hd] at h
    | some dir =>
      simp only [hd, Except.ok.injEq] at h ⊢
      refine ⟨dir, rfl, ?_⟩
      rw [← h, processInput_scan_eq, hp]

/-- C3. Whenever `ProcessInput` succeeds, whatever the flag, the inputs, their
order and the rules directory, the list it returns is sorted ascending: every
element is at most every later one, and in particular at most the next. -/
theorem ProcessInput_returns_sorted_paths (f : FalcoValidator) (env : Env)
    (inputs : List String) (w : World) (paths : List String)
    (h : (f.ProcessInput env inputs w).1 = .ok paths) :
    List.Pairwise strLE paths ∧ List.Chain' strLE paths := by
  obtain ⟨dir, _, hp⟩ := ProcessInput_ok f env inputs w paths h
  have hs : List.Sorted strLE paths := hp ▸ slicesSort_sorted _
  haveI := strLE_isTrans
  exact ⟨hs, List.chain'_iff_pairwise.mpr hs⟩

/-- C3 on an example: inputs given in descending order, the stable ruleset
asked for, one rules file found in the rules directory. -/
theorem ProcessInput_returns_sorted_paths_witness :
    ((⟨true⟩ : FalcoValidator).ProcessInput exampleEnv ["two.yaml", "one.yaml"] exampleWorld).1 =
        .ok ["/etc/falco/falco_rules.yaml", "/etc/falco/rules.d/x.yaml", "one.yaml", "two.yaml"] ∧
      List.Pairwise strLE
        ["/etc/falco/falco_rules.yaml", "/etc/falco/rules.d/x.yaml", "one.yaml", "two.yaml"] ∧
      List.Chain' strLE
        ["/etc/falco/falco_rules.yaml", "/etc/falco/rules.d/x.yaml", "one.yaml", "two.yaml"] :=
  ⟨by rfl,
    ProcessInput_returns_sorted_paths ⟨true⟩ exampleEnv ["two.yaml", "one.yaml"] exampleWorld
      ["/etc/falco/falco_rules.yaml", "/etc/falco/rules.d/x.yaml", "one.yaml", "two.yaml"]
      (by rfl)⟩

/-- C4. Whenever `ProcessInput` succeeds, every input that looks like a path
(it contains `/` or ends with `.yaml` or `.yml`) is in the returned list, at
least as often as in the inputs; nothing is deduplicated: a path occurs in the
result once for the stable ruleset if it is that path and was asked for, once
for each of its occurrences in the inputs, and once for each entry of the rules
directory that yields it. -/
theorem ProcessInput_keeps_every_path_occurrence (f : FalcoValidator) (env : Env)
    (inputs : List String) (w : World) (paths : List String)
    (h : (f.ProcessInput env inputs w).1 = .ok paths) :
    (∀ p, p ∈ inputs → looksLikePath p = true → p ∈ paths ∧ inputs.count p ≤ paths.count p) ∧
    ∃ dir, (f.ProcessInput env inputs w).2.fs.dirs rulesDir = some dir ∧
      ∀ p, looksLikePath p = true →
        paths.count p = (if f.useStableRules then [stableRules] else []).count p +
          inputs.count p + (discovered dir).count p := by
  obtain ⟨dir, hd, hp⟩ := ProcessInput_ok f env inputs w paths h
  have hc : ∀ p, looksLikePath p = true →
      paths.count p = (if f.useStableRules then [stableRules] else []).count p +
        inputs.count p + (discovered dir).count p := by
    intro p hl
    rw [hp, (slicesSort_perm _).count_eq, List.count_append, List.count_append,
      List.count_filter hl]
  refine ⟨?_, dir, hd, hc⟩
  intro p hm hl
  have h1 : inputs.count p ≤ paths.count p := by
    rw [hc p hl]
    omega
  have h2 : 0 < inputs.count p := List.count_pos_iff.mpr hm
  exact ⟨List.count_pos_iff.mp (by omega), h1⟩

/-- C4 on an example: the caller names a file of the rules directory, which is
then found there again; it is in the result twice. -/
theorem ProcessInput_keeps_every_path_occurrence_witness :
    ((⟨false⟩ : FalcoValidator).ProcessInput exampleEnv
        ["one.yaml", "/etc/falco/rules.d/x.yaml"] exampleWorld).1 =
      .ok ["/etc/falco/rules.d/x.yaml", "/etc/falco/rules.d/x.yaml", "one.yaml"] ∧
    ((∀ p, p ∈ ["one.yaml", "/etc/falco/rules.d/x.yaml"] → looksLikePath p = true →
        p ∈ ["/etc/falco/rules.d/x.yaml", "/etc/falco/rules.d/x.yaml", "one.yaml"] ∧
        (["one.yaml", "/etc/falco/rules.d/x.yaml"] : List String).count p ≤
          (["/etc/falco/rules.d/x.yaml", "/etc/falco/rules.d/x.yaml", "one.yaml"] :
            List String).count p) ∧
      ∃ dir, ((⟨false⟩ : FalcoValidator).ProcessInput exampleEnv
          ["one.yaml", "/etc/falco/rules.d/x.yaml"] exampleWorld).2.fs.dirs rulesDir = some dir ∧
        ∀ p, looksLikePath p = true →
          (["/etc/falco/rules.d/x.yaml", "/etc/falco/rules.d/x.yaml", "one.yaml"] :
            List String).count p =
            (if (⟨false⟩ : FalcoValidator).useStableRules then [stableRules] else []).count p +
              (["one.yaml", "/etc/falco/rules.d/x.yaml"] : List String).count p +
              (discovered dir).count p) :=
  ⟨by rfl,
    ProcessInput_keeps_every_path_occurrence ⟨false⟩ exampleEnv
      ["one.yaml", "/etc/falco/rules.d/x.yaml"] exampleWorld
      ["/etc/falco/rules.d/x.yaml", "/etc/falco/rules.d/x.yaml", "one.yaml"] (by rfl)⟩

theorem ProcessInput_world (f : FalcoValidator) (env : Env) (inputs : List String) (w : World) :
    (f.ProcessInput env inputs w).2 =
      (ProcessInput.loop f env inputs (if f.useStableRules then [stableRules] else []) w).2 ∧
    ∀ e, (ProcessInput.loop f env inputs (if f.useStableRules then [stableRules] else []) w).1 =
        .error e → (f.ProcessInput env inputs w).1 = .error e := by
  rcases hl : ProcessInput.loop f env inputs (if f.useStableRules then [stableRules] else []) w
    with ⟨e | rp, w1⟩
  · simp [FalcoValidator.ProcessInput, hl]
  · simp only [FalcoValidator.ProcessInput, hl]
    cases osReadDir w1.fs rulesDir <;> simp

theorem installCmd_injective : Function.Injective installCmd := by
  intro a b h
  simpa [installCmd] using h

theorem count_installCmd (l : List String) (ref : String) :
    (l.map installCmd).count (installCmd ref) = l.count ref := by
  induction l with
  | nil => simp
  | cons a t ih =>
    simp only [List.map_cons, List.count_cons, ih]
    by_cases h : a = ref
    · simp [h]
    · have h2 : installCmd a ≠ installCmd ref := fun h3 => h (installCmd_injective h3)
      simp [h, h2]

/-- C5 fails as stated: the installer fails on the identifier `a`, so
`ProcessInput` returns at once and the identifier `b` after it, which is not a
path either, triggers no invocation at all. -/
theorem ProcessInput_no_install_after_failed_install :
    looksLikePath "a" = false ∧ looksLikePath "b" = false ∧
    ((⟨false⟩ : FalcoValidator).ProcessInput exampleEnv ["a", "b"] exampleWorld).2.execs =
      [["falcoctl", "artifact", "install", "a", "--rulesfiles-dir=/etc/falco/rules.d"]] ∧
    ¬ (∀ ref, ref ∈ ["a", "b"] → looksLikePath ref = false →
        (((⟨false⟩ : FalcoValidator).ProcessInput exampleEnv ["a", "b"] exampleWorld).2.execs).count
          (installCmd ref) = 1) := by
  refine ⟨by decide, by decide, by rfl, ?_⟩
  intro h
  have h1 := h "b" (by simp) (by decide)
  have h2 : ((⟨false⟩ : FalcoValidator).ProcessInput exampleEnv ["a", "b"] exampleWorld).2.execs =
      [installCmd "a"] := by rfl
  rw [h2] at h1
  revert h1
  decide

theorem InstallArtifact_eq (f : FalcoValidator) (env : Env) (ref : String) (w : World) :
    f.InstallArtifact env ref w =
      (((env.falcoctl ["artifact", "install", ref, "--rulesfiles-dir=" ++ rulesDir] w.fs).1).map
          (fun err => "failed to install artifact " ++ ref ++ ": " ++ err),
        { w with
          fs := (env.falcoctl ["artifact", "install", ref, "--rulesfiles-dir=" ++ rulesDir] w.fs).2,
          execs := w.execs ++ [installCmd ref] }) := by
  unfold FalcoValidator.InstallArtifact installCmd
  cases h : (env.falcoctl ["artifact", "install", ref, "--rulesfiles-dir=" ++ rulesDir] w.fs).1 <;>
    simp [h]

/-- The loop of `ProcessInput` against `firstFailedInstall`: it stops at the
first installation that fails, with that installation's error, and otherwise
installs every identifier and ends well. -/
theorem processInput_loop_first_failure (f : FalcoValidator) (env : Env) :
    ∀ (inputs rulePaths : List String) (w : World),
      (∀ i err, firstFailedInstall env (identifiers inputs) w.fs = some (i, err) →
        (ProcessInput.loop f env inputs rulePaths w).2.execs =
          w.execs ++ ((identifiers inputs).take (i + 1)).map installCmd ∧
        ∃ ref, (identifiers inputs)[i]? = some ref ∧
          (ProcessInput.loop f env inputs rulePaths w).1 =
            .error ("failed to install artifact " ++ ref ++ ": " ++
              ("failed to install artifact " ++ ref ++ ": " ++ err))) ∧
      (firstFailedInstall env (identifiers inputs) w.fs = none →
        (ProcessInput.loop f env inputs rulePaths w).2.execs =
          w.execs ++ (identifiers inputs).map installCmd ∧
        ∃ out, (ProcessInput.loop f env inputs rulePaths w).1 = .ok out) := by
  intro inputs
  induction inputs with
  | nil =>
    intro rulePaths w
    refine ⟨?_, ?_⟩
    · intro i err h
      simp [identifiers, firstFailedInstall] at h
    · intro _
      exact ⟨by simp [ProcessInput.loop, identifiers], rulePaths, rfl⟩
  | cons input rest ih =>
    intro rulePaths w
    unfold ProcessInput.loop
    by_cases hp : looksLikePath input = true
    · simp only [hp, if_true]
      have hid : identifiers (input :: rest) = identifiers rest := by
        simp [identifiers, List.filter_cons, hp]
      rw [hid]
      exact ih _ w
    · simp only [hp, Bool.false_eq_true, if_false]
      have hid : identifiers (input :: rest) = input :: identifiers rest := by
        simp [identifiers, List.filter_cons, hp]
      rw [hid, InstallArtifact_eq]
      unfold firstFailedInstall
      cases hr : (env.falcoctl ["artifact", "install", input, "--rulesfiles-dir=" ++ rulesDir]
          w.fs).1 with
      | some e =>
        simp only [Option.map_some']
        refine ⟨?_, ?_⟩
        · intro i err h
          simp only [Option.some.injEq, Prod.mk.injEq] at h
          obtain ⟨hi, he⟩ := h
          subst hi
          subst he
          exact ⟨by simp, input, by simp, rfl⟩
        · intro h
          simp at h
      | none =>
        simp only [Option.map_none']
        obtain ⟨ih1, ih2⟩ := ih rulePaths
          { w with
            fs := (env.falcoctl ["artifact", "install", input, "--rulesfiles-dir=" ++ rulesDir]
              w.fs).2,
            execs := w.execs ++ [installCmd input] }
        refine ⟨?_, ?_⟩
        · intro i err h
          cases hff : firstFailedInstall env (identifiers rest)
              (env.falcoctl ["artifact", "install", input, "--rulesfiles-dir=" ++ rulesDir]
                w.fs).2 with
          | none => simp [hff] at h
          | some found =>
            obtain ⟨j, e⟩ := found
            simp only [hff, Option.map_some', Option.some.injEq, Prod.mk.injEq] at h
            obtain ⟨hi, he⟩ := h
            subst hi
            subst he
            obtain ⟨hx, ref, hget, hres⟩ := ih1 j e hff
            refine ⟨?_, ref, by simpa using hget, hres⟩
            rw [hx]
            simp
        · intro h
          cases hff : firstFailedInstall env (identifiers rest)
              (env.falcoctl ["artifact", "install", input, "--rulesfiles-dir=" ++ rulesDir]
                w.fs).2 with
          | some found => simp [hff] at h
          | none =>
            obtain ⟨hx, hout⟩ := ih2 hff
            refine ⟨?_, hout⟩
            rw [hx]
            simp

/-- C5 as amended. `ProcessInput` runs the installer, as
`falcoctl artifact install <identifier> --rulesfiles-dir=<rules directory>`,
once for each input that is not a path, in order, up to and including the
first whose installation fails, and for none after it: when the installation
of the identifier at position `i` is the first to fail, exactly the first
`i + 1` identifiers have been handed to the installer and `ProcessInput`
returns that installation's error.  When no installation fails every
identifier has been handed to the installer; that is so whenever
`ProcessInput` succeeds, and then each identifier has had one invocation for
each of its occurrences in the inputs. -/
theorem ProcessInput_installs_identifiers_until_failure (f : FalcoValidator) (env : Env)
    (inputs : List String) (w : World) :
    (∀ i err, firstFailedInstall env (identifiers inputs) w.fs = some (i, err) →
      (f.ProcessInput env inputs w).2.execs =
        w.execs ++ ((identifiers inputs).take (i + 1)).map installCmd ∧
      ∃ ref, (identifiers inputs)[i]? = some ref ∧
        (f.ProcessInput env inputs w).1 =
          .error ("failed to install artifact " ++ ref ++ ": " ++
            ("failed to install artifact " ++ ref ++ ": " ++ err))) ∧
    (firstFailedInstall env (identifiers inputs) w.fs = none →
      (f.ProcessInput env inputs w).2.execs = w.execs ++ (identifiers inputs).map installCmd) ∧
    (∀ paths, (f.ProcessInput env inputs w).1 = .ok paths →
      firstFailedInstall env (identifiers inputs) w.fs = none ∧
      (f.ProcessInput env inputs w).2.execs = w.execs ++ (identifiers inputs).map installCmd ∧
      ∀ ref, looksLikePath ref = false →
        ((identifiers inputs).map installCmd).count (installCmd ref) = inputs.count ref) := by
  obtain ⟨hw, he⟩ := ProcessInput_world f env inputs w
  obtain ⟨h1, h2⟩ :=
    processInput_loop_first_failure f env inputs (if f.useStableRules then [stableRules] else []) w
  have hfail : ∀ i err, firstFailedInstall env (identifiers inputs) w.fs = some (i, err) →
      (f.ProcessInput env inputs w).2.execs =
        w.execs ++ ((identifiers inputs).take (i + 1)).map installCmd ∧
      ∃ ref, (identifiers inputs)[i]? = some ref ∧
        (f.ProcessInput env inputs w).1 =
          .error ("failed to install artifact " ++ ref ++ ": " ++
            ("failed to install artifact " ++ ref ++ ": " ++ err)) := by
    intro i err h
    obtain ⟨hx, ref, hget, hres⟩ := h1 i err h
    exact ⟨by rw [hw, hx], ref, hget, he _ hres⟩
  have hnone : firstFailedInstall env (identifiers inputs) w.fs = none →
      (f.ProcessInput env inputs w).2.execs =
        w.execs ++ (identifiers inputs).map installCmd := by
    intro h
    rw [hw, (h2 h).1]
  refine ⟨hfail, hnone, ?_⟩
  intro paths hok
  have hff : firstFailedInstall env (identifiers inputs) w.fs = none := by
    cases hc : firstFailedInstall env (identifiers inputs) w.fs with
    | none => rfl
    | some found =>
      obtain ⟨i, err⟩ := found
      obtain ⟨_, ref, _, hres⟩ := hfail i err hc
      rw [hres] at hok
      cases hok
  refine ⟨hff, hnone hff, ?_⟩
  intro ref hl
  rw [count_installCmd]
  exact List.count_filter (by simp [hl])

/-- C5 as amended, on two examples.  The installer knows `falco-rules` only:
with the identifiers `falco-rules`, `unknown`, `falco-rules` the second
installation is the first to fail, the installer has been run on the first two
and not on the third, and `ProcessInput` returns the error.  With the one
identifier `falco-rules`, `ProcessInput` succeeds and has run it once. -/
theorem ProcessInput_installs_identifiers_until_failure_witness :
    (firstFailedInstall installingEnv
        (identifiers ["falco-rules", "one.yaml", "unknown", "falco-rules"]) exampleWorld.fs =
      some (1, "exit status 1") ∧
    ((⟨false⟩ : FalcoValidator).ProcessInput installingEnv
        ["falco-rules", "one.yaml", "unknown", "falco-rules"] exampleWorld).2.execs =
      [["falcoctl", "artifact", "install", "falco-rules", "--rulesfiles-dir=/etc/falco/rules.d"],
        ["falcoctl", "artifact", "install", "unknown", "--rulesfiles-dir=/etc/falco/rules.d"]] ∧
    ((⟨false⟩ : FalcoValidator).ProcessInput installingEnv
        ["falco-rules", "one.yaml", "unknown", "falco-rules"] exampleWorld).2.execs =
      exampleWorld.execs ++
        ((identifiers ["falco-rules", "one.yaml", "unknown", "falco-rules"]).take (1 + 1)).map
          installCmd ∧
    ∃ ref, (identifiers ["falco-rules", "one.yaml", "unknown", "falco-rules"])[1]? = some ref ∧
      ((⟨false⟩ : FalcoValidator).ProcessInput installingEnv
          ["falco-rules", "one.yaml", "unknown", "falco-rules"] exampleWorld).1 =
        .error ("failed to install artifact " ++ ref ++ ": " ++
          ("failed to install artifact " ++ ref ++ ": " ++ "exit status 1"))) ∧
    (((⟨false⟩ : FalcoValidator).ProcessInput installingEnv ["one.yaml", "falco-rules"]
        exampleWorld).1 =
      .ok ["/etc/falco/rules.d/falco_rules.yaml", "/etc/falco/rules.d/x.yaml", "one.yaml"] ∧
    firstFailedInstall installingEnv (identifiers ["one.yaml", "falco-rules"])
        exampleWorld.fs = none ∧
    ((⟨false⟩ : FalcoValidator).ProcessInput installingEnv ["one.yaml", "falco-rules"]
        exampleWorld).2.execs =
      exampleWorld.execs ++ (identifiers ["one.yaml", "falco-rules"]).map installCmd ∧
    ∀ ref, looksLikePath ref = false →
      ((identifiers ["one.yaml", "falco-rules"]).map installCmd).count (installCmd ref) =
        (["one.yaml", "falco-rules"] : List String).count ref) :=
  ⟨⟨by rfl, by rfl,
      (ProcessInput_installs_identifiers_until_failure ⟨false⟩ installingEnv
        ["falco-rules", "one.yaml", "unknown", "falco-rules"] exampleWorld).1 1 "exit status 1"
        (by rfl)⟩,
    ⟨by rfl,
      (ProcessInput_installs_identifiers_until_failure ⟨false⟩ installingEnv
        ["one.yaml", "falco-rules"] exampleWorld).2.2
        ["/etc/falco/rules.d/falco_rules.yaml", "/etc/falco/rules.d/x.yaml", "one.yaml"]
        (by rfl)⟩⟩

/-- C10 on a failing input: the rules directory holds `extra.yml` and `x.yaml`;
`ProcessInput` succeeds, takes `x.yaml` from the directory and leaves
`extra.yml` out, though a caller input of that name counts as a path. -/
theorem ProcessInput_leaves_out_yml_entries :
    exampleWorld.fs.dirs rulesDir = some ["extra.yml", "x.yaml"] ∧
    HasSuffix "extra.yml" ".yml" = true ∧ looksLikePath "extra.yml" = true ∧
    ((⟨false⟩ : FalcoValidator).ProcessInput exampleEnv ["one.yaml"] exampleWorld).1 =
      .ok ["/etc/falco/rules.d/x.yaml", "one.yaml"] ∧
    filepathJoin rulesDir "extra.yml" ∉
      (["/etc/falco/rules.d/x.yaml", "one.yaml"] : List String) := by
  refine ⟨by rfl, by decide, by decide, by rfl, by decide⟩

/-! ## Writing files -/

/-- C8 on two failing inputs.  With room for two bytes the config (one byte) is
written, the first rules file (one byte) is appended, the second does not fit:
`Run` returns the combine error, has removed the config, and leaves the
partially written combined-rules file behind, which did not exist before.  With
a full device writing the config fails and `Run` leaves the config file it has
just created behind. -/
theorem Run_leaves_partial_temporary_files :
    almostFullWorld.fs.files rulesPath = none ∧
    ((⟨false⟩ : FalcoValidator).Run exampleEnv ["one.yaml"] almostFullWorld).1 =
      some ("failed to combine rules files: failed to append file one.yaml: " ++
        "write /tmp/falco-validator-rules.yaml: no space left on device") ∧
    ((⟨false⟩ : FalcoValidator).Run exampleEnv ["one.yaml"] almostFullWorld).2.fs.files
      configPath = none ∧
    ((⟨false⟩ : FalcoValidator).Run exampleEnv ["one.yaml"] almostFullWorld).2.fs.files
      rulesPath = some [1] ∧
    fullWorld.fs.files configPath = none ∧
    ((⟨false⟩ : FalcoValidator).Run exampleEnv ["one.yaml"] fullWorld).1 =
      some ("failed to generate config: failed to write config to " ++
        "/tmp/falco-validator-config.yaml: " ++
        "write /tmp/falco-validator-config.yaml: no space left on device") ∧
    ((⟨false⟩ : FalcoValidator).Run exampleEnv ["one.yaml"] fullWorld).2.fs.files
      configPath = some [] := by
  refine ⟨by rfl, by rfl, by rfl, by rfl, by rfl, by rfl, by rfl⟩

theorem print_fs (w : World) (msg : String) : (w.print msg).fs = w.fs := rfl

theorem foldl_print_fs (plugins : List PluginDependency) (w : World) :
    (plugins.foldl
      (fun w p => w.print ("  - " ++ p.Name ++ "@" ++ p.Version ++ "\n")) w).fs = w.fs := by
  induction plugins generalizing w with
  | nil => rfl
  | cons p rest ih => rw [List.foldl_cons, ih, print_fs]

/-- The outcome of `CombineRulesFiles` and the file system it leaves depend on
the file system only, not on what has been printed or run before. -/
theorem combine_loop_frame (f : FalcoValidator) (outFile : String) :
    ∀ (inputs : List String) (w w' : World), w.fs = w'.fs →
      (CombineRulesFiles.loop f outFile inputs w).1 =
        (CombineRulesFiles.loop f outFile inputs w').1 ∧
      (CombineRulesFiles.loop f outFile inputs w).2.fs =
        (CombineRulesFiles.loop f outFile inputs w').2.fs := by
  intro inputs
  induction inputs with
  | nil => intro w w' h; exact ⟨rfl, h⟩
  | cons inputPath rest ih =>
    intro w w' h
    unfold CombineRulesFiles.loop
    simp only [print_fs, h]
    rcases f.appendFile outFile inputPath w'.fs with ⟨_ | e, fs2⟩
    · exact ih _ _ rfl
    · exact ⟨rfl, rfl⟩

theorem CombineRulesFiles_frame (f : FalcoValidator) (inputPaths : List String)
    (outputPath : String) (w w' : World) (h : w.fs = w'.fs) :
    (f.CombineRulesFiles inputPaths outputPath w).1 =
      (f.CombineRulesFiles inputPaths outputPath w').1 ∧
    (f.CombineRulesFiles inputPaths outputPath w).2.fs =
      (f.CombineRulesFiles inputPaths outputPath w').2.fs := by
  unfold FalcoValidator.CombineRulesFiles
  rw [h]
  cases osCreate w'.fs outputPath with
  | error e => exact ⟨rfl, h⟩
  | ok fs1 => exact combine_loop_frame f outputPath inputPaths _ _ rfl

theorem osRemove_files (fs : FS) (path p : String) :
    (osRemove fs path).files p = if p = path then none else fs.files p := rfl

theorem ValidateWithOutput_eq (f : FalcoValidator) (env : Env) (cfg rules : String)
    (w : World) :
    f.ValidateWithOutput env cfg rules w =
      (((env.falco ["-c", cfg, "-V", rules] w.fs).1.1,
        (env.falco ["-c", cfg, "-V", rules] w.fs).1.2.map (fun e => "validation failed: " ++ e)),
        { w with fs := (env.falco ["-c", cfg, "-V", rules] w.fs).2,
                 execs := w.execs ++ ["falco" :: ["-c", cfg, "-V", rules]] }) := by
  unfold FalcoValidator.ValidateWithOutput
  cases h : (env.falco ["-c", cfg, "-V", rules] w.fs).1.2 <;> simp [h]

/-- C9. When input resolution, dependency extraction, config writing and rules
combining all succeed and the validator exits with an error, `Run` returns the
error `validation failed: ...`, not success; when the validator's output is not
empty, that output is the last thing `Run` has printed; and neither the config
file nor the combined-rules file exists when `Run` returns.  The stages are
stated on the file system each one starts from; what has been printed before
does not change their outcome (`CombineRulesFiles_frame`). -/
theorem Run_on_validation_failure_prints_cleans_and_fails (f : FalcoValidator) (env : Env)
    (args : List String) (w : World) (rulePaths : List String)
    (plugins : List PluginDependency) (err : String)
    (hP : (f.ProcessInput env args (w.print "Processing inputs...\n")).1 = .ok rulePaths)
    (hE : f.ExtractPluginDependencies env
      (f.ProcessInput env args (w.print "Processing inputs...\n")).2.fs rulePaths = .ok plugins)
    (hW : (f.WriteConfig env configPath plugins
      (f.ProcessInput env args (w.print "Processing inputs...\n")).2.fs).1 = none)
    (hC : (f.CombineRulesFiles rulePaths rulesPath
      ⟨(f.WriteConfig env configPath plugins
        (f.ProcessInput env args (w.print "Processing inputs...\n")).2.fs).2, [], []⟩).1 = none)
    (hV : (env.falco ["-c", configPath, "-V", rulesPath]
      (f.CombineRulesFiles rulePaths rulesPath
        ⟨(f.WriteConfig env configPath plugins
          (f.ProcessInput env args (w.print "Processing inputs...\n")).2.fs).2, [], []⟩).2.fs).1.2 =
        some err) :
    (f.Run env args w).1 = some ("validation failed: " ++ err) ∧
    (∀ output, output = (env.falco ["-c", configPath, "-V", rulesPath]
        (f.CombineRulesFiles rulePaths rulesPath
          ⟨(f.WriteConfig env configPath plugins
            (f.ProcessInput env args (w.print "Processing inputs...\n")).2.fs).2, [], []⟩).2.fs).1.1 →
      output ≠ "" → (f.Run env args w).2.stdout.getLast? = some (output ++ "\n")) ∧
    (f.Run env args w).2.fs.files configPath = none ∧
    (f.Run env args w).2.fs.files rulesPath = none := by
  rcases hpi : f.ProcessInput env args (w.print "Processing inputs...\n") with ⟨r, w1⟩
  rw [hpi] at hP hE hW hC hV
  simp only at hP hE hW hC hV
  subst hP
  rcases hwc : f.WriteConfig env configPath plugins w1.fs with ⟨e, fs2⟩
  rw [hwc] at hW hC hV
  simp only at hW hC hV
  subst hW
  unfold FalcoValidator.Run
  simp only [hpi, print_fs, foldl_print_fs, hE, hwc]
  generalize hw3 : World.print _ ("Combining rules files into " ++ rulesPath ++ "\n") = w3
  have hw3fs : w3.fs = fs2 := by rw [← hw3]; rfl
  have hfr := CombineRulesFiles_frame f rulePaths rulesPath w3 ⟨fs2, [], []⟩ hw3fs
  rcases hcb : f.CombineRulesFiles rulePaths rulesPath w3 with ⟨e, w4⟩
  rw [hcb] at hfr
  simp only at hfr
  obtain ⟨h1, h2⟩ := hfr
  rw [hC] at h1
  subst h1
  rw [← h2] at hV
  simp only [ValidateWithOutput_eq, print_fs, hV, ← h2]
  refine ⟨rfl, ?_, ?_, ?_⟩
  · intro output ho hne
    rw [← ho]
    simp [hne, World.print]
  · simp [osRemove_files]
  · have hne : rulesPath ≠ configPath := by decide
    simp [osRemove_files, hne]

/-- C9 on an example: every stage succeeds, the validator prints
`LOAD_ERR_VALIDATE` and exits with status 1. -/
theorem Run_on_validation_failure_prints_cleans_and_fails_witness :
    ((⟨false⟩ : FalcoValidator).Run exampleEnv ["one.yaml"] exampleWorld).1 =
      some ("validation failed: " ++ "exit status 1") ∧
    (∀ output, output = "LOAD_ERR_VALIDATE" → output ≠ "" →
      ((⟨false⟩ : FalcoValidator).Run exampleEnv ["one.yaml"] exampleWorld).2.stdout.getLast? =
        some (output ++ "\n")) ∧
    ((⟨false⟩ : FalcoValidator).Run exampleEnv ["one.yaml"] exampleWorld).2.fs.files
      configPath = none ∧
    ((⟨false⟩ : FalcoValidator).Run exampleEnv ["one.yaml"] exampleWorld).2.fs.files
      rulesPath = none :=
  Run_on_validation_failure_prints_cleans_and_fails ⟨false⟩ exampleEnv ["one.yaml"] exampleWorld
    ["/etc/falco/rules.d/x.yaml", "one.yaml"] [⟨"a", "1"⟩] "exit status 1"
    (by rfl) (by rfl) (by rfl) (by rfl) (by rfl)

end Validator
